import Mathlib

/-!
Verification development for `parex.py`, a small parallel-execution manager:
`TaskManager.execute` spawns shell commands and registers their three pipe
file descriptors; `TaskManager.wait` runs an epoll loop that drains readable
pipes into per-process buffers, deregisters descriptors at end-of-stream and
retires a process once exactly one of its descriptors remains registered.

Python dictionaries are embedded as association lists with first-match lookup
(`dget`), in-place update (`dset`) and key deletion (`ddel`).  The epoll
environment is embedded as a list of poll results, one per loop iteration,
each either a failure of the readiness mechanism or a list of
`(fd, state, availableBytes)` events.
-/

namespace Parex

/-- First-match lookup in an association list, mirroring a Python dict read. -/
def dget {α β : Type} [DecidableEq α] (k : α) : List (α × β) → Option β
  | [] => none
  | (k', v) :: rest => if k = k' then some v else dget k rest

/-- Update or insert a binding, mirroring a Python dict assignment. -/
def dset {α β : Type} [DecidableEq α] (k : α) (v : β) : List (α × β) → List (α × β)
  | [] => [(k, v)]
  | (k', v') :: rest => if k' = k then (k, v) :: rest else (k', v') :: dset k v rest

/-- Remove every binding for a key, mirroring a Python dict `del`. -/
def ddel {α β : Type} [DecidableEq α] (k : α) : List (α × β) → List (α × β)
  | [] => []
  | (k', v') :: rest => if k' = k then ddel k rest else (k', v') :: ddel k rest

/-! ### Constants from the head of `parex.py` -/

def _EPOLLIN : Nat := 0x001
def _EPOLLPRI : Nat := 0x002
def _EPOLLOUT : Nat := 0x004
def _EPOLLERR : Nat := 0x008
def _EPOLLHUP : Nat := 0x010
def _EPOLLRDHUP : Nat := 0x2000

def READ : Nat := _EPOLLIN
def WRITE : Nat := _EPOLLOUT
def ERROR : Nat := _EPOLLERR ||| _EPOLLHUP ||| _EPOLLRDHUP

def FDIN : Nat := READ
def FDOUT : Nat := WRITE
def FDERR : Nat := ERROR

/-! ### The manager state

`TaskManager` instance attributes.  `processes` maps a pid to its
`(stdin, stdout, stderr)` descriptor triple; `processgbprot` holds, for each
pid, the triple of pipe file objects kept for garbage-collection protection
(modelled by the descriptors identifying those objects); `fds` maps a
descriptor to its owning pid; `fdtype` maps a descriptor to its role constant;
`data` maps a pid (the result of `fds.get(fd, None)`, hence an `Option`) to
the accumulated bytes.  `closedFds` records descriptors whose file object was
explicitly `close()`d, which the Python side tracks on the file objects
themselves. -/
structure TMState where
  cwd : String
  processes : List (Nat × (Nat × Nat × Nat))
  processgbprot : List (Nat × (Nat × Nat × Nat))
  fds : List (Nat × Nat)
  fdtype : List (Nat × Nat)
  data : List (Option Nat × List Nat)
  closedFds : List Nat
  deriving DecidableEq

/-- A fresh `TaskManager(cwd)`. -/
def initTM (cwd : String) : TMState :=
  { cwd := cwd, processes := [], processgbprot := [], fds := [], fdtype := [],
    data := [], closedFds := [] }

/-- The identifier and descriptor triple produced by a successful `Popen`. -/
structure SpawnResult where
  pid : Nat
  fdin : Nat
  fdout : Nat
  fderr : Nat
  deriving DecidableEq

/-- The arguments `execute` hands to `Popen`. -/
structure PopenCall where
  command : String
  shell : Bool
  deriving DecidableEq

/-- The command string and shell flag `execute` passes to `Popen`:
`fullcmd = 'cd ' + self.cwd + '; ' + cmd` with `shell=True`. -/
def popenCallOf (st : TMState) (cmd : String) : PopenCall :=
  { command := "cd " ++ st.cwd ++ "; " ++ cmd, shell := true }

/-- `TaskManager.execute`.  The `spawn` argument embeds `Popen`: given the
call it either raises (`none`) or yields a pid and three descriptors.  On a
raise the instance attributes have not yet been touched, so the state is
returned unchanged with no pid. -/
def execute (st : TMState) (cmd : String)
    (spawn : PopenCall → Option SpawnResult) : Option Nat × TMState :=
  match spawn (popenCallOf st cmd) with
  | none => (none, st)
  | some r =>
    (some r.pid,
      { st with
        processes := dset r.pid (r.fdin, r.fdout, r.fderr) st.processes,
        processgbprot := dset r.pid (r.fdin, r.fdout, r.fderr) st.processgbprot,
        fds := dset r.fderr r.pid (dset r.fdout r.pid (dset r.fdin r.pid st.fds)),
        fdtype := dset r.fderr FDERR (dset r.fdout FDOUT (dset r.fdin FDIN st.fdtype)) })

/-! ### The wait loop -/

/-- One epoll event: the descriptor, the readiness state bits, and the bytes
`os.read(fd, 4096)` would return if called. -/
structure Event where
  fd : Nat
  state : Nat
  readData : List Nat
  deriving DecidableEq

/-- The outcome of one `iop.poll(0.5)` call: the readiness mechanism either
fails or returns a list of events. -/
inductive PollResult where
  | fail : PollResult
  | ok : List Event → PollResult
  deriving DecidableEq

/-- The bytes `d` ends up holding for an event: `os.read` is only called when
`state == READ`; otherwise `d` keeps its initial value `''`. -/
def evData (ev : Event) : List Nat :=
  if ev.state = READ then ev.readData else []

/-- The tuple `(tr.1, tr.2.1, tr.2.2)` as the list Python iterates over. -/
def tripleList (tr : Nat × Nat × Nat) : List Nat := [tr.1, tr.2.1, tr.2.2]

/-- `tuple.index(fd)`: index of the first component equal to `fd`, raising
(`none`) when absent. -/
def tupleIndex (tr : Nat × Nat × Nat) (fd : Nat) : Option Nat :=
  if fd = tr.1 then some 0
  else if fd = tr.2.1 then some 1
  else if fd = tr.2.2 then some 2
  else none

/-- Indexing into a triple. -/
def tupleGet (tr : Nat × Nat × Nat) : Nat → Option Nat
  | 0 => some tr.1
  | 1 => some tr.2.1
  | 2 => some tr.2.2
  | _ => none

/-- Python truthiness of `self.fds.get(x, None)`: `None` and `0` are falsy. -/
def pyTruthy : Option Nat → Bool
  | none => false
  | some n => decide (n ≠ 0)

/-- `[x for x in self.processes[pid] if self.fds.get(x, None)]`. -/
def remainingEndpoints (tr : Nat × Nat × Nat) (fds : List (Nat × Nat)) : List Nat :=
  (tripleList tr).filter (fun x => pyTruthy (dget x fds))

/-- `self.processgbprot[pid][self.processes[pid].index(fd)].close()`.
Raises (`none`) when `pid` is `None` or missing from either dict, or when
`fd` is not in the process's descriptor tuple. -/
def hupClose (st : TMState) (pid? : Option Nat) (fd : Nat) : Option TMState :=
  match pid? with
  | none => none
  | some pid =>
    match dget pid st.processgbprot, dget pid st.processes with
    | some gtr, some tr =>
      match tupleIndex tr fd with
      | none => none
      | some i =>
        match tupleGet gtr i with
        | none => none
        | some f => some { st with closedFds := f :: st.closedFds }
    | _, _ => none

/-- The `len(d) == 0` branch: `del self.fds[fd]`, recompute the remaining
endpoints, and retire the process when exactly one remains. -/
def eosStep (st : TMState) (pid? : Option Nat) (fd : Nat) : Option TMState :=
  match pid? with
  | none => none
  | some pid =>
    let fds' := ddel fd st.fds
    match dget pid st.processes with
    | none => none
    | some tr =>
      if (remainingEndpoints tr fds').length = 1 then
        match dget pid st.processgbprot with
        | none => none
        | some _ =>
          some { st with
                 fds := fds'
                 processes := ddel pid st.processes
                 processgbprot := ddel pid st.processgbprot }
      else some { st with fds := fds' }

/-- The `else` branch: `self.data.setdefault(pid, StringIO()).write(d)`. -/
def appendData (st : TMState) (pid? : Option Nat) (d : List Nat) : TMState :=
  { st with data := dset pid? ((dget pid? st.data).getD [] ++ d) st.data }

/-- The body of `for fd, state in active` for a single event. -/
def handleEvent (st : TMState) (ev : Event) : Option TMState :=
  let pid? := dget ev.fd st.fds
  let d := evData ev
  let st0? : Option TMState :=
    if ev.state = READ then some st
    else if ev.state = _EPOLLHUP ∨ ev.state = _EPOLLRDHUP then hupClose st pid? ev.fd
    else some st
  match st0? with
  | none => none
  | some st0 =>
    if d.length = 0 then eosStep st0 pid? ev.fd
    else some (appendData st0 pid? d)

/-- Process one poll batch of events in order, propagating a raise. -/
def processEvents (st : TMState) : List Event → Option TMState
  | [] => some st
  | ev :: rest =>
    match handleEvent st ev with
    | none => none
    | some st' => processEvents st' rest

/-- The registration pass
`for fd in [x for x in self.fds if self.fdtype[x] in (FDOUT, FDERR)]`:
collect the descriptors to watch, raising (`none`) if some descriptor is
missing from `fdtype`. -/
def regList : List (Nat × Nat) → List (Nat × Nat) → Option (List Nat)
  | [], _ => some []
  | (x, _) :: rest, ft =>
    match dget x ft with
    | none => none
    | some t =>
      if t = FDOUT ∨ t = FDERR then
        match regList rest ft with
        | none => none
        | some ws => some (x :: ws)
      else regList rest ft

/-- The descriptor set `wait` registers for readability this iteration. -/
def watchSet (st : TMState) : Option (List Nat) := regList st.fds st.fdtype

/-- How a `wait()` call ends: normal return, an exception from a failing
poll, an exception from dict or tuple lookups, or exhaustion of the supplied
poll iterations while the loop would still continue. -/
inductive WaitOutcome where
  | done : TMState → WaitOutcome
  | pollFailed : TMState → WaitOutcome
  | crashed : TMState → WaitOutcome
  | fuel : TMState → WaitOutcome
  deriving DecidableEq

/-- The manager state an outcome leaves behind. -/
def outState : WaitOutcome → TMState
  | .done st => st
  | .pollFailed st => st
  | .crashed st => st
  | .fuel st => st

/-- `TaskManager.wait`: loop while `self.processes` is nonempty, register the
watch set, poll, and dispatch each returned event.  The modelled epoll
environment supplies one `PollResult` per iteration; running out of them
while the loop would still continue is reported as `fuel`. -/
def wait (st : TMState) : List PollResult → WaitOutcome
  | [] =>
    if st.processes = [] then .done st
    else
      match watchSet st with
      | none => .crashed st
      | some _ => .fuel st
  | pr :: rest =>
    if st.processes = [] then .done st
    else
      match watchSet st with
      | none => .crashed st
      | some _ =>
        match pr with
        | .fail => .pollFailed st
        | .ok evs =>
          match processEvents st evs with
          | none => .crashed st
          | some st' => wait st' rest

/-! ### Validity of the modelled epoll environment

The code trusts epoll to report events only for descriptors it registered,
i.e. descriptors currently in `fds` whose `fdtype` is `FDOUT` or `FDERR`. -/

/-- The event's descriptor is currently registered and of a polled role. -/
def validEv (st : TMState) (ev : Event) : Bool :=
  (dget ev.fd st.fds).isSome &&
    (decide (dget ev.fd st.fdtype = some FDOUT) ||
     decide (dget ev.fd st.fdtype = some FDERR))

/-- Every event of the batch is valid at the state it is processed in, and
dispatching it does not raise. -/
def validEvs (st : TMState) : List Event → Bool
  | [] => true
  | ev :: rest =>
    validEv st ev &&
      match handleEvent st ev with
      | none => false
      | some st' => validEvs st' rest

/-- Every poll iteration the loop consumes is well formed: registration
succeeds and each returned batch is valid at the state it meets. -/
def validRun (st : TMState) : List PollResult → Bool
  | [] =>
    if st.processes = [] then true
    else
      match watchSet st with
      | none => false
      | some _ => true
  | pr :: rest =>
    if st.processes = [] then true
    else
      match watchSet st with
      | none => false
      | some _ =>
        match pr with
        | .fail => true
        | .ok evs =>
          validEvs st evs &&
            match processEvents st evs with
            | none => false
            | some st' => validRun st' rest

/-- Invariant of reachable manager states. -/
structure Inv (st : TMState) : Prop where
  pollable : ∀ fd p, dget fd st.fds = some p →
    (dget fd st.fdtype = some FDOUT ∨ dget fd st.fdtype = some FDERR) →
    ∃ tr, dget p st.processes = some tr ∧ (fd = tr.2.1 ∨ fd = tr.2.2)
  live : ∀ pid tr, dget pid st.processes = some tr →
    pid ≠ 0 ∧
    dget tr.1 st.fds = some pid ∧
    dget tr.1 st.fdtype = some FDIN ∧
    (dget tr.2.1 st.fds = none ∨ dget tr.2.1 st.fds = some pid) ∧
    dget tr.2.1 st.fdtype = some FDOUT ∧
    (dget tr.2.2 st.fds = none ∨ dget tr.2.2 st.fds = some pid) ∧
    dget tr.2.2 st.fdtype = some FDERR
  gb : ∀ pid tr, dget pid st.processes = some tr → dget pid st.processgbprot = some tr
  fdsTyped : ∀ fd p, dget fd st.fds = some p → (dget fd st.fdtype).isSome

/-- Executable check implying `Inv`, for concrete witness states. -/
def invBool (st : TMState) : Bool :=
  (st.fds.all fun kv =>
    (dget kv.1 st.fdtype).isSome &&
      (!(decide (dget kv.1 st.fdtype = some FDOUT) ||
          decide (dget kv.1 st.fdtype = some FDERR)) ||
        match dget kv.2 st.processes with
        | none => false
        | some tr => decide (kv.1 = tr.2.1) || decide (kv.1 = tr.2.2))) &&
  (st.processes.all fun pv =>
    decide (pv.1 ≠ 0) &&
    decide (dget pv.2.1 st.fds = some pv.1) &&
    decide (dget pv.2.1 st.fdtype = some FDIN) &&
    (decide (dget pv.2.2.1 st.fds = none) || decide (dget pv.2.2.1 st.fds = some pv.1)) &&
    decide (dget pv.2.2.1 st.fdtype = some FDOUT) &&
    (decide (dget pv.2.2.2 st.fds = none) || decide (dget pv.2.2.2 st.fds = some pv.1)) &&
    decide (dget pv.2.2.2 st.fdtype = some FDERR) &&
    decide (dget pv.1 st.processgbprot = some pv.2))

/-- Concrete state for the retirement counterexample: process 1 with
descriptor triple (3, 4, 5); its output endpoint 4 already deregistered, 97
already buffered. -/
def exRetireSt : TMState :=
  { cwd := ".", processes := [(1, (3, 4, 5))], processgbprot := [(1, (3, 4, 5))],
    fds := [(3, 1), (5, 1)], fdtype := [(3, FDIN), (4, FDOUT), (5, FDERR)],
    data := [(some 1, [97])], closedFds := [] }

/-- Resulting state after the error endpoint 5 reaches end-of-stream. -/
def exRetireSt' : TMState :=
  { cwd := ".", processes := [], processgbprot := [],
    fds := [(3, 1)], fdtype := [(3, FDIN), (4, FDOUT), (5, FDERR)],
    data := [(some 1, [97])], closedFds := [] }

/-- The spec's (§3) notion of manager state: working directory, tracked
set, gc-protection map, both endpoint registries and the output buffers. -/
def managerState (st : TMState) :
    String × List (Nat × (Nat × Nat × Nat)) × List (Nat × (Nat × Nat × Nat)) ×
      List (Nat × Nat) × List (Nat × Nat) × List (Option Nat × List Nat) :=
  (st.cwd, st.processes, st.processgbprot, st.fds, st.fdtype, st.data)

/-! ### Byte accounting for the output buffers -/

/-- The bytes an event contributes for descriptors in `fs`: its read data
when it is a plain data-ready event on one of them, nothing otherwise. -/
def evChunk (fs : List Nat) (ev : Event) : List Nat :=
  if ev.fd ∈ fs ∧ ev.state = READ then ev.readData else []

/-- Bytes contributed by a batch, in dispatch order. -/
def batchBytes (fs : List Nat) (evs : List Event) : List Nat :=
  (evs.map (evChunk fs)).join

/-- Bytes contributed over a whole run, mirroring the recursion of `wait`. -/
def wBytes (fs : List Nat) (st : TMState) : List PollResult → List Nat
  | [] => []
  | pr :: rest =>
    if st.processes = [] then []
    else
      match watchSet st with
      | none => []
      | some _ =>
        match pr with
        | .fail => []
        | .ok evs =>
          match processEvents st evs with
          | none => []
          | some st' => batchBytes fs evs ++ wBytes fs st' rest

/-- Effect of appending a chunk on a lazily created buffer entry
(`setdefault` followed by `write`). -/
def updOpt (o : Option (List Nat)) (c : List Nat) : Option (List Nat) :=
  if c = [] then o else some (o.getD [] ++ c)

/-- A process the byte-accounting can follow: either still tracked with its
fixed descriptor triple, or already retired with its output and error
descriptors gone from the registry. -/
def PidTracked (st : TMState) (pid fi fo fe : Nat) : Prop :=
  dget pid st.processes = some (fi, fo, fe) ∨
    (dget pid st.processes = none ∧ dget fo st.fds = none ∧ dget fe st.fds = none)

/-! ### Concrete example run

One process (pid 1, descriptors stdin 3, stdout 4, stderr 5) writes byte 97
on stdout and byte 98 on stderr, then both pipes reach end-of-stream. -/

def exSt : TMState :=
  { cwd := ".", processes := [(1, (3, 4, 5))], processgbprot := [(1, (3, 4, 5))],
    fds := [(3, 1), (4, 1), (5, 1)], fdtype := [(3, FDIN), (4, FDOUT), (5, FDERR)],
    data := [], closedFds := [] }

def exPolls : List PollResult :=
  [PollResult.ok [⟨4, READ, [97]⟩, ⟨5, READ, [98]⟩],
   PollResult.ok [⟨4, READ, []⟩, ⟨5, _EPOLLHUP, []⟩]]

def exFinal : TMState :=
  { cwd := ".", processes := [], processgbprot := [], fds := [(3, 1)],
    fdtype := [(3, FDIN), (4, FDOUT), (5, FDERR)], data := [(some 1, [97, 98])],
    closedFds := [5] }

/-- `exSt` after a zero-length read on stdout 4. -/
def exSt2' : TMState :=
  { cwd := ".", processes := [(1, (3, 4, 5))], processgbprot := [(1, (3, 4, 5))],
    fds := [(3, 1), (5, 1)], fdtype := [(3, FDIN), (4, FDOUT), (5, FDERR)],
    data := [], closedFds := [] }

/-- `exSt` after a hang-up on stdout 4: same registries, file object closed. -/
def exC6St2 : TMState :=
  { cwd := ".", processes := [(1, (3, 4, 5))], processgbprot := [(1, (3, 4, 5))],
    fds := [(3, 1), (5, 1)], fdtype := [(3, FDIN), (4, FDOUT), (5, FDERR)],
    data := [], closedFds := [4] }

/-! ### Theorems -/

theorem dget_nil {α β : Type} [DecidableEq α] (k : α) :
    dget (β := β) k [] = none := rfl

theorem dget_ddel {α β : Type} [DecidableEq α] (k k' : α) (m : List (α × β)) :
    dget k (ddel k' m) = if k = k' then none else dget k m := by
  induction m with
  | nil => simp [dget, ddel]
  | cons kv rest ih =>
    obtain ⟨a, b⟩ := kv
    by_cases hak : a = k' <;> by_cases hka : k = a <;>
      simp [dget, ddel, hak, hka, ih] at * <;> simp_all

theorem dget_ddel_self {α β : Type} [DecidableEq α] (k : α) (m : List (α × β)) :
    dget k (ddel k m) = none := by
  simp [dget_ddel]

theorem dget_ddel_ne {α β : Type} [DecidableEq α] {k k' : α} (h : k ≠ k') (m : List (α × β)) :
    dget k (ddel k' m) = dget k m := by
  simp [dget_ddel, h]

theorem dget_dset {α β : Type} [DecidableEq α] (k k' : α) (v : β) (m : List (α × β)) :
    dget k (dset k' v m) = if k = k' then some v else dget k m := by
  induction m with
  | nil => simp [dget, dset]
  | cons kv rest ih =>
    obtain ⟨a, b⟩ := kv
    by_cases hak : a = k' <;> by_cases hka : k = a <;>
      simp [dget, dset, hak, hka, ih] at * <;> simp_all

theorem dget_dset_self {α β : Type} [DecidableEq α] (k : α) (v : β) (m : List (α × β)) :
    dget k (dset k v m) = some v := by
  simp [dget_dset]

theorem dget_dset_ne {α β : Type} [DecidableEq α] {k k' : α} (h : k ≠ k') (v : β)
    (m : List (α × β)) : dget k (dset k' v m) = dget k m := by
  simp [dget_dset, h]

theorem dget_mem {α β : Type} [DecidableEq α] {k : α} {v : β} {m : List (α × β)}
    (h : dget k m = some v) : (k, v) ∈ m := by
  induction m with
  | nil => simp [dget] at h
  | cons kv rest ih =>
    obtain ⟨a, b⟩ := kv
    by_cases hka : k = a
    · subst hka
      simp [dget] at h
      simp [h]
    · simp [dget, hka] at h
      exact List.mem_cons_of_mem _ (ih h)

/-! ### The reachable-state invariant

These facts hold of every state `execute` builds and are preserved by the
wait loop; they are exactly what makes the count-based completion test and
the dict accesses inside `wait` safe. -/

/-- The descriptor role constants are pairwise distinct. -/
theorem fdin_ne_fdout : FDIN ≠ FDOUT := by decide

theorem fdin_ne_fderr : FDIN ≠ FDERR := by decide

theorem fdout_ne_fderr : FDOUT ≠ FDERR := by decide

theorem invBool_inv {st : TMState} (h : invBool st = true) : Inv st := by
  rw [invBool, Bool.and_eq_true, List.all_eq_true, List.all_eq_true] at h
  obtain ⟨hfds, hprocs⟩ := h
  constructor
  · intro fd p hget hty
    have hm := hfds _ (dget_mem hget)
    rw [Bool.and_eq_true, Bool.or_eq_true, Bool.not_eq_true'] at hm
    rcases hm.2 with hcontra | hm2
    · simp only [Bool.or_eq_false_iff, decide_eq_false_iff_not] at hcontra
      rcases hty with h | h
      · exact absurd h hcontra.1
      · exact absurd h hcontra.2
    · revert hm2
      cases htr : dget p st.processes with
      | none => intro hm2; simp at hm2
      | some tr =>
        intro hm2
        rw [Bool.or_eq_true, decide_eq_true_eq, decide_eq_true_eq] at hm2
        exact ⟨tr, rfl, hm2⟩
  · intro pid tr hget
    have hm := hprocs _ (dget_mem hget)
    simp only [Bool.and_eq_true, Bool.or_eq_true, decide_eq_true_eq] at hm
    exact ⟨hm.1.1.1.1.1.1.1, hm.1.1.1.1.1.1.2, hm.1.1.1.1.1.2, hm.1.1.1.1.2,
      hm.1.1.1.2, hm.1.1.2, hm.1.2⟩
  · intro pid tr hget
    have hm := hprocs _ (dget_mem hget)
    simp only [Bool.and_eq_true, decide_eq_true_eq] at hm
    exact hm.2
  · intro fd p hget
    have hm := hfds _ (dget_mem hget)
    rw [Bool.and_eq_true] at hm
    exact hm.1

/-- Unfolded form of event validity. -/
theorem validEv_iff {st : TMState} {ev : Event} :
    validEv st ev = true ↔
      ∃ p, dget ev.fd st.fds = some p ∧
        (dget ev.fd st.fdtype = some FDOUT ∨ dget ev.fd st.fdtype = some FDERR) := by
  rw [validEv, Bool.and_eq_true, Bool.or_eq_true, decide_eq_true_eq, decide_eq_true_eq,
    Option.isSome_iff_exists]
  constructor
  · rintro ⟨⟨p, hp⟩, hty⟩; exact ⟨p, hp, hty⟩
  · rintro ⟨p, hp, hty⟩; exact ⟨⟨p, hp⟩, hty⟩

/-! ### Branch shapes of the event dispatch -/

theorem hup_state_ne_read {s : Nat} (h : s = _EPOLLHUP ∨ s = _EPOLLRDHUP) : s ≠ READ := by
  rcases h with rfl | rfl <;> decide

theorem evData_of_ne_read {ev : Event} (h : ev.state ≠ READ) : evData ev = [] := by
  simp [evData, h]

/-- Dispatch on `state == READ` with bytes available appends them. -/
theorem handleEvent_read_data {st : TMState} {ev : Event}
    (h1 : ev.state = READ) (h2 : ev.readData ≠ []) :
    handleEvent st ev = some (appendData st (dget ev.fd st.fds) ev.readData) := by
  have hd : evData ev = ev.readData := by simp [evData, h1]
  simp [handleEvent, h1, hd, h2]

/-- Dispatch on `state == READ` with a zero-length read runs the
end-of-stream handling directly. -/
theorem handleEvent_read_eos {st : TMState} {ev : Event}
    (h1 : ev.state = READ) (h2 : ev.readData = []) :
    handleEvent st ev = eosStep st (dget ev.fd st.fds) ev.fd := by
  have hd : evData ev = [] := by simp [evData, h1, h2]
  simp [handleEvent, h1, hd]

/-- Dispatch on a hang-up closes the endpoint's file object and then runs
the end-of-stream handling. -/
theorem handleEvent_hup {st : TMState} {ev : Event}
    (h : ev.state = _EPOLLHUP ∨ ev.state = _EPOLLRDHUP) :
    handleEvent st ev =
      match hupClose st (dget ev.fd st.fds) ev.fd with
      | none => none
      | some st0 => eosStep st0 (dget ev.fd st.fds) ev.fd := by
  have hne := hup_state_ne_read h
  have hd : evData ev = [] := evData_of_ne_read hne
  cases hcl : hupClose st (dget ev.fd st.fds) ev.fd with
  | none => simp [handleEvent, hne, h, hd, hcl]
  | some st0 => simp [handleEvent, hne, h, hd, hcl]

/-- Dispatch on any other readiness state (e.g. a combination of flags)
skips both the read and the close and runs the end-of-stream handling. -/
theorem handleEvent_other {st : TMState} {ev : Event}
    (h1 : ev.state ≠ READ) (h2 : ev.state ≠ _EPOLLHUP) (h3 : ev.state ≠ _EPOLLRDHUP) :
    handleEvent st ev = eosStep st (dget ev.fd st.fds) ev.fd := by
  have hd : evData ev = [] := evData_of_ne_read h1
  simp [handleEvent, h1, h2, h3, hd]

/-- A polled descriptor is never a process's input descriptor. -/
theorem pollable_ne_fdin {st : TMState} (hInv : Inv st) {fd pid : Nat} {tr : Nat × Nat × Nat}
    (htr : dget pid st.processes = some tr)
    (hty : dget fd st.fdtype = some FDOUT ∨ dget fd st.fdtype = some FDERR) :
    fd ≠ tr.1 := by
  intro hEq
  have hin := (hInv.live pid tr htr).2.2.1
  rw [hEq] at hty
  rcases hty with h | h <;> rw [hin] at h <;> exact absurd (Option.some.inj h).symm (by decide)

/-- A process's output and error descriptors are distinct. -/
theorem fdout_ne_fderr_of_live {st : TMState} (hInv : Inv st) {pid : Nat} {tr : Nat × Nat × Nat}
    (htr : dget pid st.processes = some tr) : tr.2.1 ≠ tr.2.2 := by
  intro hEq
  have h1 := (hInv.live pid tr htr).2.2.2.2.1
  have h2 := (hInv.live pid tr htr).2.2.2.2.2.2
  rw [hEq, h2] at h1
  exact absurd (Option.some.inj h1) (by decide)

/-- Shape of the end-of-stream handling once the owning process is known. -/
theorem eosStep_shape {st : TMState} {pid : Nat} {tr : Nat × Nat × Nat}
    (htr : dget pid st.processes = some tr)
    (hgb : dget pid st.processgbprot = some tr) (fd : Nat) :
    ∃ st', eosStep st (some pid) fd = some st' ∧
      st'.cwd = st.cwd ∧ st'.fds = ddel fd st.fds ∧ st'.fdtype = st.fdtype ∧
      st'.data = st.data ∧ st'.closedFds = st.closedFds ∧
      ((remainingEndpoints tr (ddel fd st.fds)).length = 1 →
        st'.processes = ddel pid st.processes ∧
        st'.processgbprot = ddel pid st.processgbprot) ∧
      ((remainingEndpoints tr (ddel fd st.fds)).length ≠ 1 →
        st'.processes = st.processes ∧ st'.processgbprot = st.processgbprot) := by
  by_cases hlen : (remainingEndpoints tr (ddel fd st.fds)).length = 1
  · refine ⟨{ st with
        fds := ddel fd st.fds
        processes := ddel pid st.processes
        processgbprot := ddel pid st.processgbprot },
      ?_, rfl, rfl, rfl, rfl, rfl, fun _ => ⟨rfl, rfl⟩, fun h => absurd hlen h⟩
    simp [eosStep, htr, hgb, hlen]
  · refine ⟨{ st with fds := ddel fd st.fds },
      ?_, rfl, rfl, rfl, rfl, rfl, fun h => absurd h hlen, fun _ => ⟨rfl, rfl⟩⟩
    simp [eosStep, htr, hgb, hlen]

/-- Characterization of a valid end-of-stream event: the dispatch succeeds,
deregisters exactly the event's descriptor, optionally closes its file
object, leaves role registry and buffers alone, and retires the owning
process exactly on the one-remaining-endpoint condition. -/
theorem eos_char {st : TMState} {ev : Event} (hInv : Inv st)
    (hv : validEv st ev = true) (hd : evData ev = []) :
    ∃ pid tr st',
      dget ev.fd st.fds = some pid ∧
      dget pid st.processes = some tr ∧
      (ev.fd = tr.2.1 ∨ ev.fd = tr.2.2) ∧
      handleEvent st ev = some st' ∧
      st'.cwd = st.cwd ∧
      st'.fds = ddel ev.fd st.fds ∧
      st'.fdtype = st.fdtype ∧
      st'.data = st.data ∧
      (st'.closedFds = st.closedFds ∨ st'.closedFds = ev.fd :: st.closedFds) ∧
      ((remainingEndpoints tr (ddel ev.fd st.fds)).length = 1 →
        st'.processes = ddel pid st.processes ∧
        st'.processgbprot = ddel pid st.processgbprot) ∧
      ((remainingEndpoints tr (ddel ev.fd st.fds)).length ≠ 1 →
        st'.processes = st.processes ∧ st'.processgbprot = st.processgbprot) := by
  obtain ⟨pid, hget, hty⟩ := validEv_iff.mp hv
  obtain ⟨tr, htr, hfd⟩ := hInv.pollable ev.fd pid hget hty
  have hgb := hInv.gb pid tr htr
  by_cases hR : ev.state = READ
  · have h0 : ev.readData = [] := by
      rw [evData, if_pos hR] at hd; exact hd
    obtain ⟨st', heq, hrest⟩ := eosStep_shape htr hgb ev.fd
    refine ⟨pid, tr, st', hget, htr, hfd, ?_, hrest.1, hrest.2.1, hrest.2.2.1,
      hrest.2.2.2.1, Or.inl hrest.2.2.2.2.1, hrest.2.2.2.2.2.1, hrest.2.2.2.2.2.2⟩
    rw [handleEvent_read_eos hR h0, hget, heq]
  · by_cases hH : ev.state = _EPOLLHUP ∨ ev.state = _EPOLLRDHUP
    · have hne1 : ev.fd ≠ tr.1 := pollable_ne_fdin hInv htr hty
      have hclose : hupClose st (some pid) ev.fd =
          some { st with closedFds := ev.fd :: st.closedFds } := by
        rcases hfd with hfd1 | hfd2
        · simp [hupClose, hgb, htr, tupleIndex, hne1, ← hfd1, tupleGet]
        · have hne2 : ev.fd ≠ tr.2.1 := by
            intro hEq
            exact (fdout_ne_fderr_of_live hInv htr) (hEq.symm.trans hfd2)
          simp [hupClose, hgb, htr, tupleIndex, hne1, hne2, ← hfd2, tupleGet]
      set st0 : TMState := { st with closedFds := ev.fd :: st.closedFds }
      have htr0 : dget pid st0.processes = some tr := htr
      have hgb0 : dget pid st0.processgbprot = some tr := hgb
      obtain ⟨st', heq, hrest⟩ := eosStep_shape htr0 hgb0 ev.fd
      refine ⟨pid, tr, st', hget, htr, hfd, ?_, hrest.1, hrest.2.1, hrest.2.2.1,
        hrest.2.2.2.1, Or.inr hrest.2.2.2.2.1, hrest.2.2.2.2.2.1, hrest.2.2.2.2.2.2⟩
      rw [handleEvent_hup hH, hget, hclose]
      exact heq
    · push_neg at hH
      obtain ⟨st', heq, hrest⟩ := eosStep_shape htr hgb ev.fd
      refine ⟨pid, tr, st', hget, htr, hfd, ?_, hrest.1, hrest.2.1, hrest.2.2.1,
        hrest.2.2.2.1, Or.inl hrest.2.2.2.2.1, hrest.2.2.2.2.2.1, hrest.2.2.2.2.2.2⟩
      rw [handleEvent_other hR hH.1 hH.2, hget, heq]

/-! ### Preservation of the invariant by the wait loop -/

theorem pyTruthy_some {n : Nat} (h : n ≠ 0) : pyTruthy (some n) = true := by
  simp [pyTruthy, h]

theorem two_le_filter_first_second {f : Nat → Bool} {a b c : Nat}
    (h1 : f a = true) (h2 : f b = true) : 2 ≤ ([a, b, c].filter f).length := by
  cases h3 : f c <;> simp [List.filter, h1, h2, h3]

theorem two_le_filter_first_third {f : Nat → Bool} {a b c : Nat}
    (h1 : f a = true) (h3 : f c = true) : 2 ≤ ([a, b, c].filter f).length := by
  cases h2 : f b <;> simp [List.filter, h1, h2, h3]

/-- A descriptor of output or error role differs from one of input role. -/
theorem pollable_ne_of_fdin {st : TMState} {fd g : Nat}
    (hty : dget fd st.fdtype = some FDOUT ∨ dget fd st.fdtype = some FDERR)
    (hg : dget g st.fdtype = some FDIN) : fd ≠ g := by
  intro hEq
  subst hEq
  rcases hty with h | h <;> rw [hg] at h <;> exact absurd (Option.some.inj h) (by decide)

/-- The invariant only depends on the four registry components. -/
theorem inv_frames {st st' : TMState} (hInv : Inv st)
    (hp : st'.processes = st.processes) (hf : st'.fds = st.fds)
    (ht : st'.fdtype = st.fdtype) (hg : st'.processgbprot = st.processgbprot) : Inv st' := by
  constructor
  · intro fd p h1 h2
    rw [hf] at h1
    rw [ht] at h2
    rw [hp]
    exact hInv.pollable fd p h1 h2
  · intro pid tr h1
    rw [hp] at h1
    rw [hf, ht]
    exact hInv.live pid tr h1
  · intro pid tr h1
    rw [hp] at h1
    rw [hg]
    exact hInv.gb pid tr h1
  · intro fd p h1
    rw [hf] at h1
    rw [ht]
    exact hInv.fdsTyped fd p h1

/-- The state left by the end-of-stream handling satisfies the invariant. -/
theorem inv_eos_result {st : TMState} {fd pid : Nat} {tr : Nat × Nat × Nat}
    (hInv : Inv st) (hget : dget fd st.fds = some pid)
    (hty : dget fd st.fdtype = some FDOUT ∨ dget fd st.fdtype = some FDERR)
    (htr : dget pid st.processes = some tr)
    {st' : TMState}
    (hfds : st'.fds = ddel fd st.fds) (hft : st'.fdtype = st.fdtype)
    (hret : (remainingEndpoints tr (ddel fd st.fds)).length = 1 →
      st'.processes = ddel pid st.processes ∧
      st'.processgbprot = ddel pid st.processgbprot)
    (hnret : (remainingEndpoints tr (ddel fd st.fds)).length ≠ 1 →
      st'.processes = st.processes ∧ st'.processgbprot = st.processgbprot) :
    Inv st' := by
  have hlive := hInv.live pid tr htr
  by_cases hlen : (remainingEndpoints tr (ddel fd st.fds)).length = 1
  · obtain ⟨hp, hg⟩ := hret hlen
    constructor
    · intro fd' p' h1 h2
      rw [hfds, dget_ddel] at h1
      rw [hft] at h2
      by_cases hfe : fd' = fd
      · rw [if_pos hfe] at h1; exact absurd h1 (by simp)
      · rw [if_neg hfe] at h1
        obtain ⟨tr', htr', hloc⟩ := hInv.pollable fd' p' h1 h2
        by_cases hpp : p' = pid
        · subst hpp
          rw [htr] at htr'
          obtain rfl := Option.some.inj htr'
          exfalso
          have htrin : pyTruthy (dget tr.1 (ddel fd st.fds)) = true := by
            rw [dget_ddel_ne (Ne.symm (pollable_ne_of_fdin hty hlive.2.2.1)) , hlive.2.1]
            exact pyTruthy_some hlive.1
          have hfdin' : pyTruthy (dget fd' (ddel fd st.fds)) = true := by
            rw [dget_ddel_ne hfe, h1]
            exact pyTruthy_some hlive.1
          rw [remainingEndpoints, tripleList] at hlen
          rcases hloc with hl | hl
          · have h2le := two_le_filter_first_second
              (f := fun x => pyTruthy (dget x (ddel fd st.fds)))
              (b := tr.2.1) (c := tr.2.2) htrin (hl ▸ hfdin')
            omega
          · have h2le := two_le_filter_first_third
              (f := fun x => pyTruthy (dget x (ddel fd st.fds)))
              (b := tr.2.1) (c := tr.2.2) htrin (hl ▸ hfdin')
            omega
        · rw [hp, dget_ddel_ne hpp]
          exact ⟨tr', htr', hloc⟩
    · intro pid' tr' h1
      rw [hp, dget_ddel] at h1
      by_cases hpp : pid' = pid
      · rw [if_pos hpp] at h1; exact absurd h1 (by simp)
      · rw [if_neg hpp] at h1
        have hl := hInv.live pid' tr' h1
        have hino : tr'.1 ≠ fd := Ne.symm (pollable_ne_of_fdin hty hl.2.2.1)
        refine ⟨hl.1, ?_, ?_, ?_, ?_, ?_, ?_⟩
        · rw [hfds, dget_ddel_ne hino]; exact hl.2.1
        · rw [hft]; exact hl.2.2.1
        · rw [hfds, dget_ddel]
          by_cases ho : tr'.2.1 = fd
          · rw [if_pos ho]; exact Or.inl rfl
          · rw [if_neg ho]; exact hl.2.2.2.1
        · rw [hft]; exact hl.2.2.2.2.1
        · rw [hfds, dget_ddel]
          by_cases he : tr'.2.2 = fd
          · rw [if_pos he]; exact Or.inl rfl
          · rw [if_neg he]; exact hl.2.2.2.2.2.1
        · rw [hft]; exact hl.2.2.2.2.2.2
    · intro pid' tr' h1
      rw [hp, dget_ddel] at h1
      by_cases hpp : pid' = pid
      · rw [if_pos hpp] at h1; exact absurd h1 (by simp)
      · rw [if_neg hpp] at h1
        rw [hg, dget_ddel_ne hpp]
        exact hInv.gb pid' tr' h1
    · intro fd' p' h1
      rw [hfds, dget_ddel] at h1
      by_cases hfe : fd' = fd
      · rw [if_pos hfe] at h1; exact absurd h1 (by simp)
      · rw [if_neg hfe] at h1
        rw [hft]
        exact hInv.fdsTyped fd' p' h1
  · obtain ⟨hp, hg⟩ := hnret hlen
    constructor
    · intro fd' p' h1 h2
      rw [hfds, dget_ddel] at h1
      rw [hft] at h2
      by_cases hfe : fd' = fd
      · rw [if_pos hfe] at h1; exact absurd h1 (by simp)
      · rw [if_neg hfe] at h1
        rw [hp]
        exact hInv.pollable fd' p' h1 h2
    · intro pid' tr' h1
      rw [hp] at h1
      have hl := hInv.live pid' tr' h1
      have hino : tr'.1 ≠ fd := Ne.symm (pollable_ne_of_fdin hty hl.2.2.1)
      refine ⟨hl.1, ?_, ?_, ?_, ?_, ?_, ?_⟩
      · rw [hfds, dget_ddel_ne hino]; exact hl.2.1
      · rw [hft]; exact hl.2.2.1
      · rw [hfds, dget_ddel]
        by_cases ho : tr'.2.1 = fd
        · rw [if_pos ho]; exact Or.inl rfl
        · rw [if_neg ho]; exact hl.2.2.2.1
      · rw [hft]; exact hl.2.2.2.2.1
      · rw [hfds, dget_ddel]
        by_cases he : tr'.2.2 = fd
        · rw [if_pos he]; exact Or.inl rfl
        · rw [if_neg he]; exact hl.2.2.2.2.2.1
      · rw [hft]; exact hl.2.2.2.2.2.2
    · intro pid' tr' h1
      rw [hp] at h1
      rw [hg]
      exact hInv.gb pid' tr' h1
    · intro fd' p' h1
      rw [hfds, dget_ddel] at h1
      by_cases hfe : fd' = fd
      · rw [if_pos hfe] at h1; exact absurd h1 (by simp)
      · rw [if_neg hfe] at h1
        rw [hft]
        exact hInv.fdsTyped fd' p' h1

/-- Event dispatch preserves the invariant. -/
theorem inv_handleEvent {st st' : TMState} {ev : Event} (hInv : Inv st)
    (hv : validEv st ev = true) (heq : handleEvent st ev = some st') : Inv st' := by
  by_cases hR : ev.state = READ ∧ ev.readData ≠ []
  · rw [handleEvent_read_data hR.1 hR.2] at heq
    obtain rfl := Option.some.inj heq
    exact inv_frames hInv rfl rfl rfl rfl
  · have hd : evData ev = [] := by
      by_cases hR' : ev.state = READ
      · have h0 : ev.readData = [] := by
          by_contra hne
          exact hR ⟨hR', hne⟩
        simp [evData, hR', h0]
      · exact evData_of_ne_read hR'
    obtain ⟨pid, tr, st'', hget, htr, hfd, heq', hcwd, hfds, hft, hdata, hcl, hret, hnret⟩ :=
      eos_char hInv hv hd
    rw [heq'] at heq
    obtain rfl := Option.some.inj heq
    obtain ⟨p0, hget0, hty0⟩ := validEv_iff.mp hv
    rw [hget] at hget0
    obtain rfl := Option.some.inj hget0
    exact inv_eos_result hInv hget hty0 htr hfds hft hret hnret

/-- Batch dispatch preserves the invariant. -/
theorem inv_processEvents : ∀ {evs : List Event} {st st' : TMState}, Inv st →
    validEvs st evs = true → processEvents st evs = some st' → Inv st'
  | [], st, st', hInv, _, heq => by
    rw [processEvents] at heq
    obtain rfl := Option.some.inj heq
    exact hInv
  | ev :: rest, st, st', hInv, hve, heq => by
    rw [validEvs, Bool.and_eq_true] at hve
    obtain ⟨hv, hrest⟩ := hve
    rw [processEvents] at heq
    cases hhe : handleEvent st ev with
    | none => rw [hhe] at heq hrest; exact absurd heq (by simp)
    | some st1 =>
      rw [hhe] at heq hrest
      exact inv_processEvents (inv_handleEvent hInv hv hhe) hrest heq

/-- When the tracked set is empty the loop body is never entered. -/
theorem wait_of_empty {st : TMState} (hp : st.processes = []) :
    ∀ polls, wait st polls = WaitOutcome.done st
  | [] => by simp [wait, hp]
  | _ :: _ => by simp [wait, hp]

theorem wait_nil_fuel {st : TMState} {ws : List Nat} (hp : st.processes ≠ [])
    (hws : watchSet st = some ws) : wait st [] = WaitOutcome.fuel st := by
  simp [wait, hp, hws]

theorem wait_nil_crashed {st : TMState} (hp : st.processes ≠ [])
    (hws : watchSet st = none) : wait st [] = WaitOutcome.crashed st := by
  simp [wait, hp, hws]

theorem wait_cons_fail {st : TMState} {ws : List Nat} (rest : List PollResult)
    (hp : st.processes ≠ []) (hws : watchSet st = some ws) :
    wait st (PollResult.fail :: rest) = WaitOutcome.pollFailed st := by
  simp [wait, hp, hws]

theorem wait_cons_ok {st st1 : TMState} {evs : List Event} {ws : List Nat}
    (rest : List PollResult) (hp : st.processes ≠ []) (hws : watchSet st = some ws)
    (hpe : processEvents st evs = some st1) :
    wait st (PollResult.ok evs :: rest) = wait st1 rest := by
  simp [wait, hp, hws, hpe]

/-- A run reaching a normal return leaves an empty tracked set and an
invariant-satisfying state. -/
theorem wait_done_inv : ∀ {polls : List PollResult} {st st' : TMState}, Inv st →
    validRun st polls = true → wait st polls = WaitOutcome.done st' →
    st'.processes = [] ∧ Inv st'
  | [], st, st', hInv, _, hw => by
    by_cases hp : st.processes = []
    · rw [wait_of_empty hp] at hw
      obtain rfl := WaitOutcome.done.inj hw
      exact ⟨hp, hInv⟩
    · cases hws : watchSet st with
      | none => rw [wait_nil_crashed hp hws] at hw; exact absurd hw (by simp)
      | some ws => rw [wait_nil_fuel hp hws] at hw; exact absurd hw (by simp)
  | pr :: rest, st, st', hInv, hvr, hw => by
    by_cases hp : st.processes = []
    · rw [wait_of_empty hp] at hw
      obtain rfl := WaitOutcome.done.inj hw
      exact ⟨hp, hInv⟩
    · simp only [validRun, if_neg hp] at hvr
      cases hws : watchSet st with
      | none => rw [hws] at hvr; exact absurd hvr (by simp)
      | some ws =>
        rw [hws] at hvr
        cases pr with
        | fail =>
          rw [wait_cons_fail rest hp hws] at hw
          exact absurd hw (by simp)
        | ok evs =>
          rw [Bool.and_eq_true] at hvr
          obtain ⟨hve, hvr'⟩ := hvr
          cases hpe : processEvents st evs with
          | none => rw [hpe] at hvr'; exact absurd hvr' (by simp)
          | some st1 =>
            rw [hpe] at hvr'
            rw [wait_cons_ok rest hp hws hpe] at hw
            exact wait_done_inv (inv_processEvents hInv hve hpe) hvr' hw

/-- Claim C1: `wait` returns exactly once the tracked process set is empty:
it returns immediately on an empty set, and whenever it returns normally the
tracked set is empty and every output and error endpoint has been
deregistered (no descriptor of role `FDOUT` or `FDERR` remains in the fd
registry). -/
theorem wait_returns_iff_empty {st : TMState} {polls : List PollResult}
    (hInv : Inv st) (hvr : validRun st polls = true) :
    (st.processes = [] → wait st polls = WaitOutcome.done st) ∧
    (∀ st', wait st polls = WaitOutcome.done st' →
      st'.processes = [] ∧
      ∀ fd p, dget fd st'.fds = some p →
        ¬(dget fd st'.fdtype = some FDOUT ∨ dget fd st'.fdtype = some FDERR)) := by
  constructor
  · intro hp
    exact wait_of_empty hp polls
  · intro st' hw
    obtain ⟨hemp, hInv'⟩ := wait_done_inv hInv hvr hw
    refine ⟨hemp, ?_⟩
    intro fd p h1 h2
    obtain ⟨tr, htr, _⟩ := hInv'.pollable fd p h1 h2
    rw [hemp] at htr
    exact absurd htr (by simp [dget])

/-- Claim C7: if spawning fails, `execute` raises synchronously to its
caller and the manager state is unchanged: tracked set, endpoint registries
and all output buffers are exactly as before the call. -/
theorem execute_spawn_failure (st : TMState) (cmd : String)
    (spawn : PopenCall → Option SpawnResult)
    (h : spawn (popenCallOf st cmd) = none) :
    execute st cmd spawn = (none, st) := by
  rw [execute, h]

theorem execute_spawn_failure_witness :
    execute (initTM ".") "ls" (fun _ => none) = (none, initTM ".") :=
  execute_spawn_failure (initTM ".") "ls" (fun _ => none) rfl

/-- Claim C9: the command actually run is the working directory applied as a
textual `cd` prefix to the command string, through a shell, with the
characters of directory and command preserved verbatim (no escaping). -/
theorem command_is_textual_prefix (st : TMState) (cmd : String) :
    (popenCallOf st cmd).command = "cd " ++ st.cwd ++ "; " ++ cmd ∧
    (popenCallOf st cmd).shell = true ∧
    (popenCallOf st cmd).command.data =
      ("cd ").data ++ st.cwd.data ++ ("; ").data ++ cmd.data := by
  refine ⟨rfl, rfl, ?_⟩
  simp [popenCallOf]

/-- Claim C8: if the readiness mechanism fails, `wait` aborts with the
error and the state — in particular every output buffer with the bytes
captured so far — is left exactly as it was when the failure hit. -/
theorem poll_failure_aborts {st : TMState} {ws : List Nat} (rest : List PollResult)
    (hne : st.processes ≠ []) (hws : watchSet st = some ws) :
    wait st (PollResult.fail :: rest) = WaitOutcome.pollFailed st ∧
    (outState (wait st (PollResult.fail :: rest))).data = st.data := by
  refine ⟨wait_cons_fail rest hne hws, ?_⟩
  rw [wait_cons_fail rest hne hws]
  rfl

/-- Claim C2: after an endpoint is deregistered on end-of-stream, the owning
process is retired (removed from the tracked set) if and only if precisely
one of its three registered endpoints remains in the fd registry. -/
theorem retire_iff_one_remaining {st st' : TMState} {ev : Event} {pid : Nat}
    {tr : Nat × Nat × Nat}
    (hInv : Inv st) (hv : validEv st ev = true) (hd : evData ev = [])
    (hget : dget ev.fd st.fds = some pid) (htr : dget pid st.processes = some tr)
    (heq : handleEvent st ev = some st') :
    (dget pid st'.processes = none ↔
      ((tripleList tr).filter (fun x => (dget x st'.fds).isSome)).length = 1) := by
  obtain ⟨pid0, tr0, st'', hget0, htr0, hfd0, heq0, _, hfds0, _, _, _, hret0, hnret0⟩ :=
    eos_char hInv hv hd
  rw [hget] at hget0
  obtain rfl := Option.some.inj hget0
  rw [htr] at htr0
  obtain rfl := Option.some.inj htr0
  rw [heq] at heq0
  obtain rfl := Option.some.inj heq0
  have hlive := hInv.live pid tr htr
  have hfeq : (tripleList tr).filter (fun x => (dget x st'.fds).isSome) =
      remainingEndpoints tr (ddel ev.fd st.fds) := by
    rw [remainingEndpoints]
    apply List.filter_congr
    intro x hx
    rw [hfds0, dget_ddel]
    by_cases hxe : x = ev.fd
    · simp [hxe, pyTruthy]
    · rw [if_neg hxe]
      have hcases : dget x st.fds = none ∨ dget x st.fds = some pid := by
        rcases (by simpa [tripleList] using hx : x = tr.1 ∨ x = tr.2.1 ∨ x = tr.2.2) with
          rfl | rfl | rfl
        · exact Or.inr hlive.2.1
        · exact hlive.2.2.2.1
        · exact hlive.2.2.2.2.2.1
      rcases hcases with h | h <;> rw [h]
      · simp [pyTruthy]
      · simp [pyTruthy, hlive.1]
  rw [hfeq]
  by_cases hlen : (remainingEndpoints tr (ddel ev.fd st.fds)).length = 1
  · obtain ⟨hpr, _⟩ := hret0 hlen
    rw [hpr, dget_ddel_self]
    simp [hlen]
  · obtain ⟨hpr, _⟩ := hnret0 hlen
    rw [hpr, htr]
    simp [hlen]

/-- Claim C5 counterexample: a zero-length read on endpoint 5 retires
process 1, yet its input endpoint 3 is still present in the fd registry and
all three endpoints keep their entries in the role registry — retirement
does not remove all of the process's endpoints from every registry. -/
theorem retirement_keeps_registry_entries :
    handleEvent exRetireSt ⟨5, READ, []⟩ = some exRetireSt' ∧
    dget 1 exRetireSt'.processes = none ∧
    dget 3 exRetireSt'.fds = some 1 ∧
    dget 3 exRetireSt'.fdtype = some FDIN ∧
    dget 4 exRetireSt'.fdtype = some FDOUT ∧
    dget 5 exRetireSt'.fdtype = some FDERR := by
  decide

/-- Claim C5 (amended): retirement removes the process from the tracked set
and from the gc-protection map and leaves its accumulated output buffer
unchanged; of the endpoint registries, only the end-of-stream endpoint is
removed from the fd registry — the input endpoint stays registered there and
the role registry is untouched. -/
theorem retirement_frame {st st' : TMState} {ev : Event} {pid : Nat}
    {tr : Nat × Nat × Nat}
    (hInv : Inv st) (hv : validEv st ev = true) (hd : evData ev = [])
    (hget : dget ev.fd st.fds = some pid) (htr : dget pid st.processes = some tr)
    (heq : handleEvent st ev = some st')
    (hlen : (remainingEndpoints tr (ddel ev.fd st.fds)).length = 1) :
    st'.processes = ddel pid st.processes ∧
    st'.processgbprot = ddel pid st.processgbprot ∧
    st'.fds = ddel ev.fd st.fds ∧
    st'.fdtype = st.fdtype ∧
    st'.data = st.data ∧
    dget (some pid) st'.data = dget (some pid) st.data ∧
    dget tr.1 st'.fds = some pid := by
  obtain ⟨pid0, tr0, st'', hget0, htr0, hfd0, heq0, _, hfds0, hft0, hdata0, _, hret0, _⟩ :=
    eos_char hInv hv hd
  rw [hget] at hget0
  obtain rfl := Option.some.inj hget0
  rw [htr] at htr0
  obtain rfl := Option.some.inj htr0
  rw [heq] at heq0
  obtain rfl := Option.some.inj heq0
  obtain ⟨hpr, hgr⟩ := hret0 hlen
  have hlive := hInv.live pid tr htr
  obtain ⟨p1, hget1, hty1⟩ := validEv_iff.mp hv
  have hne : tr.1 ≠ ev.fd := Ne.symm (pollable_ne_of_fdin hty1 hlive.2.2.1)
  refine ⟨hpr, hgr, hfds0, hft0, hdata0, by rw [hdata0], ?_⟩
  rw [hfds0, dget_ddel_ne hne]
  exact hlive.2.1

/-- Claim C6: a zero-length read and a hang-up event on the same registered
descriptor produce the same resulting manager state — same deregistration,
same retirement decision, and no error surfaced to the caller.  (The
hang-up branch additionally closes the endpoint's file object, which is not
a component of the manager state.) -/
theorem zero_read_matches_hangup {st : TMState} {ev1 ev2 : Event}
    (hInv : Inv st) (hv : validEv st ev1 = true)
    (h1 : ev1.state = READ) (h10 : ev1.readData = [])
    (hfd : ev2.fd = ev1.fd) (h2 : ev2.state = _EPOLLHUP ∨ ev2.state = _EPOLLRDHUP) :
    ∃ st1 st2, handleEvent st ev1 = some st1 ∧ handleEvent st ev2 = some st2 ∧
      managerState st1 = managerState st2 := by
  have hv2 : validEv st ev2 = true := by
    rw [validEv, hfd]
    rw [validEv] at hv
    exact hv
  have hd1 : evData ev1 = [] := by simp [evData, h1, h10]
  have hd2 : evData ev2 = [] := evData_of_ne_read (hup_state_ne_read h2)
  obtain ⟨pa, ta, st1, hgeta, htra, hfda, heqa, hcwda, hfdsa, hfta, hdataa, _, hreta, hnreta⟩ :=
    eos_char hInv hv hd1
  obtain ⟨pb, tb, st2, hgetb, htrb, hfdb, heqb, hcwdb, hfdsb, hftb, hdatab, _, hretb, hnretb⟩ :=
    eos_char hInv hv2 hd2
  rw [hfd, hgeta] at hgetb
  obtain rfl := Option.some.inj hgetb
  rw [htra] at htrb
  obtain rfl := Option.some.inj htrb
  refine ⟨st1, st2, heqa, heqb, ?_⟩
  rw [managerState, managerState]
  have hfds2 : st2.fds = ddel ev1.fd st.fds := by rw [hfdsb, hfd]
  by_cases hlen : (remainingEndpoints ta (ddel ev1.fd st.fds)).length = 1
  · obtain ⟨hp1, hg1⟩ := hreta hlen
    obtain ⟨hp2, hg2⟩ := hretb (by rw [hfd]; exact hlen)
    rw [hcwda, hcwdb, hfdsa, hfds2, hfta, hftb, hdataa, hdatab, hp1, hp2, hg1, hg2]
  · obtain ⟨hp1, hg1⟩ := hnreta hlen
    obtain ⟨hp2, hg2⟩ := hnretb (by rw [hfd]; exact hlen)
    rw [hcwda, hcwdb, hfdsa, hfds2, hfta, hftb, hdataa, hdatab, hp1, hp2, hg1, hg2]

/-- Claim C10: a readiness state that is neither exactly `READ` nor exactly
one of the two hang-up flags — e.g. data-ready combined with hang-up — makes
the dispatch read zero bytes, deregister the endpoint and run the
retirement check, even when bytes are available on the endpoint. -/
theorem combined_state_treated_as_eos {st : TMState} {ev : Event} {pid : Nat}
    {tr : Nat × Nat × Nat}
    (hInv : Inv st) (hv : validEv st ev = true)
    (hR : ev.state ≠ READ) (hH : ev.state ≠ _EPOLLHUP) (hRH : ev.state ≠ _EPOLLRDHUP)
    (havail : ev.readData ≠ [])
    (hget : dget ev.fd st.fds = some pid) (htr : dget pid st.processes = some tr) :
    ∃ st', handleEvent st ev = some st' ∧
      st'.data = st.data ∧ st'.closedFds = st.closedFds ∧
      st'.fds = ddel ev.fd st.fds ∧
      ((remainingEndpoints tr (ddel ev.fd st.fds)).length = 1 →
        st'.processes = ddel pid st.processes) ∧
      ((remainingEndpoints tr (ddel ev.fd st.fds)).length ≠ 1 →
        st'.processes = st.processes) := by
  have hgb := hInv.gb pid tr htr
  obtain ⟨st', heq, hcwd, hfds, hft, hdata, hcl, hret, hnret⟩ := eosStep_shape htr hgb ev.fd
  refine ⟨st', ?_, hdata, hcl, hfds, fun h => (hret h).1, fun h => (hnret h).1⟩
  rw [handleEvent_other hR hH hRH, hget]
  exact heq

/-- Every descriptor the registration pass collects has a polled role. -/
theorem regList_mem_type : ∀ {m ft : List (Nat × Nat)} {ws : List Nat},
    regList m ft = some ws → ∀ x ∈ ws,
      dget x ft = some FDOUT ∨ dget x ft = some FDERR
  | [], _, ws, h, x, hx => by
    rw [regList] at h
    obtain rfl := Option.some.inj h
    exact absurd hx (by simp)
  | (a, b) :: rest, ft, ws, h, x, hx => by
    rw [regList] at h
    cases hta : dget a ft with
    | none => simp only [hta] at h; exact absurd h (by simp)
    | some t =>
      simp only [hta] at h
      by_cases htt : t = FDOUT ∨ t = FDERR
      · rw [if_pos htt] at h
        cases hrl : regList rest ft with
        | none => simp only [hrl] at h; exact absurd h (by simp)
        | some ws' =>
          simp only [hrl] at h
          obtain rfl := Option.some.inj h
          rcases List.mem_cons.mp hx with rfl | hx'
          · rcases htt with rfl | rfl
            · exact Or.inl hta
            · exact Or.inr hta
          · exact regList_mem_type hrl x hx'
      · rw [if_neg htt] at h
        exact regList_mem_type h x hx

/-- Claim C4: a process's input endpoint is never included in the readiness
registration set `wait` builds, is never explicitly closed, and is never
removed from the fd registry by the event dispatch, so the completion
test's reference count is stable. -/
theorem input_endpoint_stable {st : TMState} {f : Nat}
    (hInv : Inv st) (hty : dget f st.fdtype = some FDIN) :
    (∀ ws, watchSet st = some ws → f ∉ ws) ∧
    (∀ ev st', validEv st ev = true → handleEvent st ev = some st' →
      dget f st'.fds = dget f st.fds ∧ (f ∈ st'.closedFds ↔ f ∈ st.closedFds)) := by
  constructor
  · intro ws hws hmem
    rcases regList_mem_type hws f hmem with h | h <;> rw [hty] at h <;>
      exact absurd (Option.some.inj h) (by decide)
  · intro ev st' hv heq
    obtain ⟨p1, hget1, hty1⟩ := validEv_iff.mp hv
    have hne : ev.fd ≠ f := pollable_ne_of_fdin hty1 hty
    by_cases hR : ev.state = READ ∧ ev.readData ≠ []
    · rw [handleEvent_read_data hR.1 hR.2] at heq
      obtain rfl := Option.some.inj heq
      exact ⟨rfl, Iff.rfl⟩
    · have hd : evData ev = [] := by
        by_cases hR' : ev.state = READ
        · have h0 : ev.readData = [] := by
            by_contra hc
            exact hR ⟨hR', hc⟩
          simp [evData, hR', h0]
        · exact evData_of_ne_read hR'
      obtain ⟨pid, tr, st'', hget, htr, hfd, heq0, _, hfds0, _, _, hcl0, _, _⟩ :=
        eos_char hInv hv hd
      rw [heq] at heq0
      obtain rfl := Option.some.inj heq0
      refine ⟨?_, ?_⟩
      · rw [hfds0, dget_ddel_ne (Ne.symm hne)]
      · rcases hcl0 with h | h
        · rw [h]
        · rw [h]
          simp [List.mem_cons, Ne.symm hne]

theorem updOpt_nil (o : Option (List Nat)) : updOpt o [] = o := by
  simp [updOpt]

theorem updOpt_append (o : Option (List Nat)) (c1 c2 : List Nat) :
    updOpt (updOpt o c1) c2 = updOpt o (c1 ++ c2) := by
  by_cases h1 : c1 = [] <;> by_cases h2 : c2 = [] <;>
    simp [updOpt, h1, h2, List.append_assoc]

theorem evChunk_of_evData_nil {ev : Event} (h : evData ev = []) (fs : List Nat) :
    evChunk fs ev = [] := by
  by_cases hR : ev.state = READ
  · have h0 : ev.readData = [] := by
      rw [evData, if_pos hR] at h
      exact h
    simp [evChunk, h0]
  · simp [evChunk, hR]

/-- One event's effect on a followed process's buffer: exactly its chunk for
the process's output and error descriptors is appended, and the process
stays followed. -/
theorem data_event {st st' : TMState} {ev : Event} {pid fi fo fe : Nat}
    (hInv : Inv st) (hv : validEv st ev = true)
    (htk : PidTracked st pid fi fo fe)
    (heq : handleEvent st ev = some st') :
    dget (some pid) st'.data =
      updOpt (dget (some pid) st.data) (evChunk [fo, fe] ev) ∧
    PidTracked st' pid fi fo fe := by
  obtain ⟨p1, hget1, hty1⟩ := validEv_iff.mp hv
  obtain ⟨tr1, htr1, hloc1⟩ := hInv.pollable ev.fd p1 hget1 hty1
  by_cases hR : ev.state = READ ∧ ev.readData ≠ []
  · rw [handleEvent_read_data hR.1 hR.2, hget1] at heq
    obtain rfl := Option.some.inj heq
    constructor
    · rcases htk with htk | htk
      · by_cases hfo : ev.fd = fo
        · have hp1 : p1 = pid := by
            have hd4 := (hInv.live pid (fi, fo, fe) htk).2.2.2.1
            rw [hfo] at hget1
            rcases hd4 with h | h
            · rw [h] at hget1
              exact absurd hget1 (by simp)
            · rw [h] at hget1
              exact (Option.some.inj hget1).symm
          subst hp1
          have hchunk : evChunk [fo, fe] ev = ev.readData := by
            simp [evChunk, hfo, hR.1]
          rw [hchunk]
          simp only [appendData]
          rw [dget_dset_self, updOpt, if_neg hR.2]
        · by_cases hfe : ev.fd = fe
          · have hp1 : p1 = pid := by
              have hd6 := (hInv.live pid (fi, fo, fe) htk).2.2.2.2.2.1
              rw [hfe] at hget1
              rcases hd6 with h | h
              · rw [h] at hget1
                exact absurd hget1 (by simp)
              · rw [h] at hget1
                exact (Option.some.inj hget1).symm
            subst hp1
            have hchunk : evChunk [fo, fe] ev = ev.readData := by
              simp [evChunk, hfe, hR.1]
            rw [hchunk]
            simp only [appendData]
            rw [dget_dset_self, updOpt, if_neg hR.2]
          · have hp1 : p1 ≠ pid := by
              intro hEq
              subst hEq
              rw [htk] at htr1
              obtain rfl := Option.some.inj htr1.symm
              rcases hloc1 with h | h
              · exact hfo h
              · exact hfe h
            have hchunk : evChunk [fo, fe] ev = [] := by
              simp [evChunk, hfo, hfe]
            rw [hchunk, updOpt_nil]
            simp only [appendData]
            exact dget_dset_ne (fun hc => hp1 (Option.some.inj hc).symm) _ _
      · have hfo : ev.fd ≠ fo := by
          intro hEq
          rw [hEq, htk.2.1] at hget1
          exact absurd hget1 (by simp)
        have hfe : ev.fd ≠ fe := by
          intro hEq
          rw [hEq, htk.2.2] at hget1
          exact absurd hget1 (by simp)
        have hp1 : p1 ≠ pid := by
          intro hEq
          rw [hEq, htk.1] at htr1
          exact absurd htr1 (by simp)
        have hchunk : evChunk [fo, fe] ev = [] := by
          simp [evChunk, hfo, hfe]
        rw [hchunk, updOpt_nil]
        simp only [appendData]
        exact dget_dset_ne (fun hc => hp1 (Option.some.inj hc).symm) _ _
    · rcases htk with htk | htk
      · exact Or.inl htk
      · exact Or.inr htk
  · have hd : evData ev = [] := by
      by_cases hR' : ev.state = READ
      · have h0 : ev.readData = [] := by
          by_contra hc
          exact hR ⟨hR', hc⟩
        simp [evData, hR', h0]
      · exact evData_of_ne_read hR'
    have hchunk0 : evChunk [fo, fe] ev = [] := evChunk_of_evData_nil hd _
    obtain ⟨pid1, trx, st'', hget0, htr0, hfd0, heq0, _, hfds0, _, hdata0, _, hret0, hnret0⟩ :=
      eos_char hInv hv hd
    rw [heq] at heq0
    obtain rfl := Option.some.inj heq0
    rw [hget1] at hget0
    obtain rfl := Option.some.inj hget0
    constructor
    · rw [hdata0, hchunk0, updOpt_nil]
    · rcases htk with htk | htk
      · by_cases hpp : p1 = pid
        · subst hpp
          rw [htk] at htr0
          obtain rfl := Option.some.inj htr0.symm
          have hlive := hInv.live p1 (fi, fo, fe) htk
          have hl1 : p1 ≠ 0 := hlive.1
          have hl2 : dget fi st.fds = some p1 := hlive.2.1
          have hl3 : dget fi st.fdtype = some FDIN := hlive.2.2.1
          have hl4 : dget fo st.fds = none ∨ dget fo st.fds = some p1 := hlive.2.2.2.1
          have hl6 : dget fe st.fds = none ∨ dget fe st.fds = some p1 := hlive.2.2.2.2.2.1
          by_cases hlen : (remainingEndpoints (fi, fo, fe) (ddel ev.fd st.fds)).length = 1
          · right
            obtain ⟨hpr, _⟩ := hret0 hlen
            have hfd' : ev.fd = fo ∨ ev.fd = fe := hfd0
            have hofe : fo ≠ fe := fdout_ne_fderr_of_live hInv htk
            have hfi_ne : fi ≠ ev.fd := Ne.symm (pollable_ne_of_fdin hty1 hl3)
            have hffi : pyTruthy (dget fi (ddel ev.fd st.fds)) = true := by
              rw [dget_ddel_ne hfi_ne, hl2]
              exact pyTruthy_some hl1
            simp only [remainingEndpoints, tripleList] at hlen
            refine ⟨by rw [hpr, dget_ddel_self], ?_, ?_⟩
            · rw [hfds0, dget_ddel]
              rcases hfd' with hcase | hcase
              · rw [if_pos hcase.symm]
              · have hfoe : ¬fo = ev.fd := fun hc => hofe (hc.trans hcase)
                rw [if_neg hfoe]
                rcases hl4 with h | h
                · exact h
                · exfalso
                  have hff : pyTruthy (dget fo (ddel ev.fd st.fds)) = true := by
                    rw [dget_ddel_ne hfoe, h]
                    exact pyTruthy_some hl1
                  have h2le := two_le_filter_first_second
                    (f := fun x => pyTruthy (dget x (ddel ev.fd st.fds)))
                    (c := fe) hffi hff
                  omega
            · rw [hfds0, dget_ddel]
              rcases hfd' with hcase | hcase
              · have hfee : ¬fe = ev.fd := fun hc => hofe ((hc.trans hcase).symm)
                rw [if_neg hfee]
                rcases hl6 with h | h
                · exact h
                · exfalso
                  have hff : pyTruthy (dget fe (ddel ev.fd st.fds)) = true := by
                    rw [dget_ddel_ne hfee, h]
                    exact pyTruthy_some hl1
                  have h2le := two_le_filter_first_third
                    (f := fun x => pyTruthy (dget x (ddel ev.fd st.fds)))
                    (b := fo) hffi hff
                  omega
              · rw [if_pos hcase.symm]
          · left
            obtain ⟨hpr, _⟩ := hnret0 hlen
            rw [hpr]
            exact htk
        · left
          by_cases hlen : (remainingEndpoints trx (ddel ev.fd st.fds)).length = 1
          · obtain ⟨hpr, _⟩ := hret0 hlen
            rw [hpr, dget_ddel_ne (fun hc => hpp hc.symm)]
            exact htk
          · obtain ⟨hpr, _⟩ := hnret0 hlen
            rw [hpr]
            exact htk
      · right
        have hpne : p1 ≠ pid := by
          intro hEq
          rw [hEq, htk.1] at htr0
          exact absurd htr0 (by simp)
        refine ⟨?_, ?_, ?_⟩
        · by_cases hlen : (remainingEndpoints trx (ddel ev.fd st.fds)).length = 1
          · obtain ⟨hpr, _⟩ := hret0 hlen
            rw [hpr, dget_ddel_ne (fun hc => hpne hc.symm)]
            exact htk.1
          · obtain ⟨hpr, _⟩ := hnret0 hlen
            rw [hpr]
            exact htk.1
        · rw [hfds0, dget_ddel]
          by_cases h : fo = ev.fd
          · rw [if_pos h]
          · rw [if_neg h]
            exact htk.2.1
        · rw [hfds0, dget_ddel]
          by_cases h : fe = ev.fd
          · rw [if_pos h]
          · rw [if_neg h]
            exact htk.2.2

/-- Batch-level byte accounting. -/
theorem data_batch : ∀ {evs : List Event} {st st' : TMState} {pid fi fo fe : Nat},
    Inv st → validEvs st evs = true → PidTracked st pid fi fo fe →
    processEvents st evs = some st' →
    dget (some pid) st'.data =
      updOpt (dget (some pid) st.data) (batchBytes [fo, fe] evs) ∧
    Inv st' ∧ PidTracked st' pid fi fo fe
  | [], st, st', pid, fi, fo, fe, hInv, _, htk, heq => by
    rw [processEvents] at heq
    obtain rfl := Option.some.inj heq
    refine ⟨?_, hInv, htk⟩
    simp [batchBytes, updOpt_nil]
  | ev :: rest, st, st', pid, fi, fo, fe, hInv, hve, htk, heq => by
    rw [validEvs, Bool.and_eq_true] at hve
    obtain ⟨hv, hrest⟩ := hve
    rw [processEvents] at heq
    cases hhe : handleEvent st ev with
    | none =>
      rw [hhe] at hrest
      exact absurd hrest (by simp)
    | some st1 =>
      simp only [hhe] at heq hrest
      obtain ⟨hdata1, htk1⟩ := data_event hInv hv htk hhe
      have hInv1 := inv_handleEvent hInv hv hhe
      obtain ⟨hdata2, hInv2, htk2⟩ := data_batch hInv1 hrest htk1 heq
      refine ⟨?_, hInv2, htk2⟩
      rw [hdata2, hdata1, updOpt_append]
      have hcons : batchBytes [fo, fe] (ev :: rest) =
          evChunk [fo, fe] ev ++ batchBytes [fo, fe] rest := by
        simp [batchBytes]
      rw [hcons]

/-- Run-level byte accounting: whatever way the loop ends, a followed
process's buffer has received exactly the chunks delivered for its output
and error descriptors, in order. -/
theorem data_run : ∀ {polls : List PollResult} {st : TMState} {pid fi fo fe : Nat},
    Inv st → validRun st polls = true → PidTracked st pid fi fo fe →
    dget (some pid) (outState (wait st polls)).data =
      updOpt (dget (some pid) st.data) (wBytes [fo, fe] st polls)
  | [], st, pid, fi, fo, fe, hInv, hvr, htk => by
    have hout : outState (wait st []) = st := by
      by_cases hp : st.processes = []
      · rw [wait_of_empty hp]; rfl
      · cases hws : watchSet st with
        | none => rw [wait_nil_crashed hp hws]; rfl
        | some ws => rw [wait_nil_fuel hp hws]; rfl
    rw [hout]
    simp [wBytes, updOpt_nil]
  | pr :: rest, st, pid, fi, fo, fe, hInv, hvr, htk => by
    by_cases hp : st.processes = []
    · rw [wait_of_empty hp]
      simp [wBytes, hp, updOpt_nil, outState]
    · simp only [validRun, if_neg hp] at hvr
      cases hws : watchSet st with
      | none => rw [hws] at hvr; exact absurd hvr (by simp)
      | some ws =>
        rw [hws] at hvr
        cases pr with
        | fail =>
          rw [wait_cons_fail rest hp hws]
          simp [wBytes, hp, hws, updOpt_nil, outState]
        | ok evs =>
          rw [Bool.and_eq_true] at hvr
          obtain ⟨hve, hvr'⟩ := hvr
          cases hpe : processEvents st evs with
          | none => rw [hpe] at hvr'; exact absurd hvr' (by simp)
          | some st1 =>
            rw [hpe] at hvr'
            rw [wait_cons_ok rest hp hws hpe]
            obtain ⟨hdataB, hInvB, htkB⟩ := data_batch hInv hve htk hpe
            have hrec := data_run hInvB hvr' htkB
            rw [hrec, hdataB, updOpt_append]
            have hwb : wBytes [fo, fe] st (PollResult.ok evs :: rest) =
                batchBytes [fo, fe] evs ++ wBytes [fo, fe] st1 rest := by
              simp [wBytes, hp, hws, hpe]
            rw [hwb]

/-- A pair chunk splits as the output chunk followed by the error chunk. -/
theorem evChunk_pair {fo fe : Nat} (hne : fo ≠ fe) (ev : Event) :
    evChunk [fo, fe] ev = evChunk [fo] ev ++ evChunk [fe] ev := by
  by_cases hR : ev.state = READ
  · by_cases h1 : ev.fd = fo
    · have h2 : ev.fd ≠ fe := fun hc => hne (h1.symm.trans hc)
      simp [evChunk, h1, h2, hR, hne]
    · by_cases h2 : ev.fd = fe
      · simp [evChunk, h1, h2, hR, Ne.symm hne]
      · simp [evChunk, h1, h2, hR]
  · simp [evChunk, hR]

theorem perm_middle_swap (b c d : List Nat) :
    List.Perm (b ++ (c ++ d)) (c ++ (b ++ d)) := by
  have h2 := (List.perm_append_comm : List.Perm (b ++ c) (c ++ b)).append_right d
  rw [List.append_assoc, List.append_assoc] at h2
  exact h2

theorem perm_append_interchange (a b c d : List Nat) :
    List.Perm ((a ++ b) ++ (c ++ d)) ((a ++ c) ++ (b ++ d)) := by
  have h := List.Perm.append_left a (perm_middle_swap b c d)
  rw [List.append_assoc a b (c ++ d), List.append_assoc a c (b ++ d)]
  exact h

theorem batchBytes_pair {fo fe : Nat} (hne : fo ≠ fe) :
    ∀ evs : List Event,
      List.Perm (batchBytes [fo, fe] evs) (batchBytes [fo] evs ++ batchBytes [fe] evs)
  | [] => by simp [batchBytes]
  | ev :: rest => by
    have ih := batchBytes_pair hne rest
    have hcons : ∀ fs, batchBytes fs (ev :: rest) = evChunk fs ev ++ batchBytes fs rest := by
      intro fs
      simp [batchBytes]
    rw [hcons, hcons, hcons, evChunk_pair hne ev]
    exact (List.Perm.append_left _ ih).trans (perm_append_interchange _ _ _ _)

theorem wBytes_pair {fo fe : Nat} (hne : fo ≠ fe) :
    ∀ (polls : List PollResult) (st : TMState),
      List.Perm (wBytes [fo, fe] st polls) (wBytes [fo] st polls ++ wBytes [fe] st polls)
  | [], st => by simp [wBytes]
  | pr :: rest, st => by
    by_cases hp : st.processes = []
    · simp [wBytes, hp]
    · cases hws : watchSet st with
      | none => simp [wBytes, hp, hws]
      | some ws =>
        cases pr with
        | fail => simp [wBytes, hp, hws]
        | ok evs =>
          cases hpe : processEvents st evs with
          | none => simp [wBytes, hp, hws, hpe]
          | some st1 =>
            have ih := wBytes_pair hne rest st1
            have hB := batchBytes_pair hne evs
            have hw : ∀ fs, wBytes fs st (PollResult.ok evs :: rest) =
                batchBytes fs evs ++ wBytes fs st1 rest := by
              intro fs
              simp [wBytes, hp, hws, hpe]
            rw [hw, hw, hw]
            exact (hB.append ih).trans (perm_append_interchange _ _ _ _)

/-- Claim C3: for a process that delivers bytes on both its output and its
error channel during a completed run, the final buffer for its pid holds
exactly the union of the bytes delivered on the two channels — a
permutation of output-channel bytes followed by error-channel bytes, so no
byte is lost and none is duplicated (order between channels unspecified). -/
theorem output_gathers_both_channels {st st' : TMState} {polls : List PollResult}
    {pid fi fo fe : Nat}
    (hInv : Inv st) (hvr : validRun st polls = true)
    (htr : dget pid st.processes = some (fi, fo, fe))
    (hnew : dget (some pid) st.data = none)
    (hw : wait st polls = WaitOutcome.done st')
    (hob : wBytes [fo] st polls ≠ []) (heb : wBytes [fe] st polls ≠ []) :
    ∃ m, dget (some pid) st'.data = some m ∧
      List.Perm m (wBytes [fo] st polls ++ wBytes [fe] st polls) := by
  have hrun := data_run hInv hvr (Or.inl htr)
  rw [hw] at hrun
  simp only [outState] at hrun
  have hne : fo ≠ fe := fdout_ne_fderr_of_live hInv htr
  have hperm := wBytes_pair hne polls st
  have hWne : wBytes [fo, fe] st polls ≠ [] := by
    intro h0
    rw [h0] at hperm
    have hz := hperm.symm.eq_nil
    rcases List.append_eq_nil.mp hz with ⟨h1, _⟩
    exact hob h1
  rw [hnew, updOpt, if_neg hWne] at hrun
  refine ⟨_, hrun, ?_⟩
  simpa using hperm

theorem wait_returns_iff_empty_witness :
    wait exSt exPolls = WaitOutcome.done exFinal ∧ exFinal.processes = [] := by
  have hInv : Inv exSt := invBool_inv (by decide)
  have hvr : validRun exSt exPolls = true := by decide
  have hw : wait exSt exPolls = WaitOutcome.done exFinal := by decide
  exact ⟨hw, ((wait_returns_iff_empty hInv hvr).2 exFinal hw).1⟩

theorem retire_iff_one_remaining_witness :
    (dget 1 exSt2'.processes = none ↔
      ((tripleList (3, 4, 5)).filter (fun x => (dget x exSt2'.fds).isSome)).length = 1) :=
  @retire_iff_one_remaining exSt exSt2' ⟨4, READ, []⟩ 1 (3, 4, 5)
    (invBool_inv (by decide)) (by decide) (by decide) (by decide) (by decide) (by decide)

theorem output_gathers_both_channels_witness :
    (dget (some 1) exFinal.data).isSome = true := by
  obtain ⟨m, hm, -⟩ := @output_gathers_both_channels exSt exFinal exPolls 1 3 4 5
    (invBool_inv (by decide)) (by decide) (by decide) (by decide) (by decide)
    (by decide) (by decide)
  rw [hm]
  rfl

theorem input_endpoint_stable_witness :
    3 ∉ [4, 5] ∧ dget 3 exSt2'.fds = dget 3 exSt.fds := by
  have h := @input_endpoint_stable exSt 3 (invBool_inv (by decide)) (by decide)
  refine ⟨h.1 [4, 5] (by decide), ?_⟩
  exact (h.2 ⟨4, READ, []⟩ exSt2' (by decide) (by decide)).1

theorem retirement_frame_witness :
    exRetireSt'.processes = ddel 1 exRetireSt.processes ∧
    dget (some 1) exRetireSt'.data = dget (some 1) exRetireSt.data ∧
    dget 3 exRetireSt'.fds = some 1 := by
  have h := @retirement_frame exRetireSt exRetireSt' ⟨5, READ, []⟩ 1 (3, 4, 5)
    (invBool_inv (by decide)) (by decide) (by decide) (by decide) (by decide)
    (by decide) (by decide)
  exact ⟨h.1, h.2.2.2.2.2.1, h.2.2.2.2.2.2⟩

theorem zero_read_matches_hangup_witness :
    managerState exSt2' = managerState exC6St2 := by
  obtain ⟨st1, st2, h1, h2, h3⟩ :=
    @zero_read_matches_hangup exSt ⟨4, READ, []⟩ ⟨4, _EPOLLHUP, []⟩
      (invBool_inv (by decide)) (by decide) rfl rfl rfl (Or.inl rfl)
  have hda : handleEvent exSt ⟨4, READ, []⟩ = some exSt2' := by decide
  have hdb : handleEvent exSt ⟨4, _EPOLLHUP, []⟩ = some exC6St2 := by decide
  rw [hda] at h1
  rw [hdb] at h2
  obtain rfl := Option.some.inj h1
  obtain rfl := Option.some.inj h2
  exact h3

theorem poll_failure_aborts_witness :
    wait exSt [PollResult.fail] = WaitOutcome.pollFailed exSt :=
  (@poll_failure_aborts exSt [4, 5] [] (by decide) (by decide)).1

theorem combined_state_treated_as_eos_witness :
    handleEvent exSt ⟨4, 17, [99]⟩ = some exSt2' ∧ exSt2'.data = exSt.data := by
  obtain ⟨st', heq, hdata, -, -, -, -⟩ :=
    @combined_state_treated_as_eos exSt ⟨4, 17, [99]⟩ 1 (3, 4, 5)
      (invBool_inv (by decide)) (by decide) (by decide) (by decide) (by decide)
      (by decide) (by decide) (by decide)
  have hd : handleEvent exSt ⟨4, 17, [99]⟩ = some exSt2' := by decide
  rw [hd] at heq
  obtain rfl := Option.some.inj heq
  exact ⟨hd, hdata⟩

end Parex
